import Mathlib

/-!
Shallow embedding of the `expenses` Go module (expenses.go) and proofs about
its write-path logic: validation hooks (BeforeCreate), label-tree flattening
(Labels.Push), reference extraction and dependency ordering (Transactions.Push),
upsert column sets, schema install/uninstall ordering, and JSON
(de)serialization of the entities.

Machine integers (`int64`, `uint16`) are modelled as `Int` / `Nat`; the
validation and extraction logic under study never relies on wrap-around.
Go `nil` pointers become `Option`, Go slices become `List` (with `Option`
where the nil/non-nil distinction is observable, as for JSON output), and
the nondeterministic pieces of the environment (UUID generation, the storage
engine) are passed in as explicit arguments.
-/

/-- `NullString` (expenses.go): a SQL- and JSON-compatible nullable string.
Field `string` mirrors `sql.NullString.String`, `valid` mirrors `Valid`. -/
structure NullString where
  string : String
  valid : Bool
deriving DecidableEq, Repr

/-- `Actor` (expenses.go): a participant in a transaction. The server-assigned
timestamps do not take part in any modelled logic and live only in the row
model used for the upsert column analysis. -/
structure Actor where
  name : String
  flags : Nat
  headers : String
deriving DecidableEq, Repr

/-- `Label` (expenses.go): a named tag with an optional in-memory `Parent`
pointer (modelled as `Option Label`, so only finite parent chains are
representable, matching every terminating run of the Go code) and the
stored `ParentName` nullable foreign key. -/
inductive Label where
  | mk (name : String) (parentName : NullString) (flags : Nat) (headers : String)
       (parent : Option Label)
deriving Repr

/-- Projection: `Label.Name`. -/
def Label.name : Label → String
  | .mk n _ _ _ _ => n

/-- Projection: `Label.ParentName`. -/
def Label.parentName : Label → NullString
  | .mk _ pn _ _ _ => pn

/-- Projection: `Label.Flags`. -/
def Label.flags : Label → Nat
  | .mk _ _ f _ _ => f

/-- Projection: `Label.Headers`. -/
def Label.headers : Label → String
  | .mk _ _ _ h _ => h

/-- Projection: `Label.Parent`. -/
def Label.parent : Label → Option Label
  | .mk _ _ _ _ p => p

/-- Functional update of `Label.ParentName` (the assignment
`lb.ParentName = NullString{...}` in the Go code). -/
def Label.setParentName : Label → NullString → Label
  | .mk n _ f h p, pn => .mk n pn f h p

/-- The Go zero value of `Label` with a given name:
`Label{Name: ...}` as built by the reference extractor. -/
def Label.bare (n : String) : Label :=
  .mk n ⟨"", false⟩ 0 "" none

/-- `Details` (expenses.go): one itemized row of a Transaction. The cyclic
back-pointer `Transaction *Transaction` is never read by the modelled code
and is omitted. -/
structure Details where
  uuid : Option String
  transactionUUID : String
  labelName : String
  amount : Int
  flags : Nat
  headers : String
  label : Option Label

/-- `Transaction` (expenses.go). `date` is kept abstract as the RFC3339 text
the Go `time.Time` serializes to; no modelled logic inspects it. `details`
mirrors the Go slice `[]*Details`: `none` is a nil slice, `some []` an empty
non-nil one (JSON output observes the difference). -/
structure Transaction where
  uuid : Option String
  date : String
  amount : Int
  labelName : String
  senderName : String
  receiverName : String
  flags : Nat
  headers : String
  label : Option Label
  sender : Option Actor
  receiver : Option Actor
  details : Option (List Details)

/-- The elements a Go `range` over the possibly-nil `Details` slice visits. -/
def detailsList : Option (List Details) → List Details
  | none => []
  | some l => l

/-- The errors the module's own code returns (each constructor stands for one
`fmt.Errorf` / `errors.New` call site, carrying the data the message cites),
plus `storage` for opaque errors surfaced from the storage engine. -/
inductive Err where
  /-- transaction details dont add up, expected ... but got ... -/
  | detailsMismatch (expected got : Int)
  /-- details amount cannot be negative -/
  | negativeDetailAmount
  /-- Actor cannot have have an empty name -/
  | emptyActorName
  /-- Label cannot have an empty name -/
  | emptyLabelName
  /-- an opaque error of the storage engine -/
  | storage (code : Nat)
deriving DecidableEq, Repr

/-- `PushContext` (expenses.go) without the storage handle: the storage engine
is passed to the modelled operations as an explicit oracle argument instead. -/
structure PushContext where
  batchSize : Int
  justAppend : Bool
deriving DecidableEq, Repr

/-- `Actor.BeforeCreate` (expenses.go): reject an empty name. -/
def actorBeforeCreate (a : Actor) : Option Err :=
  if a.name = "" then some .emptyActorName else none

/-- `Label.BeforeCreate` (expenses.go): reject an empty name, otherwise copy
the parent object's name into the stored `ParentName` when a parent is
attached. Returns the (possibly updated) record and the error, mirroring the
Go method's in-place mutation plus error return. -/
def labelBeforeCreate (l : Label) : Label × Option Err :=
  if l.name = "" then (l, some .emptyLabelName)
  else
    match l.parent with
    | some p => (l.setParentName ⟨p.name, true⟩, none)
    | none => (l, none)

/-- `Details.BeforeCreate` (expenses.go): assign a fresh UUID when absent,
then reject a negative amount. `fresh` stands for `uuid.New().String()`. -/
def detailsBeforeCreate (fresh : String) (d : Details) : Details × Option Err :=
  let d' := match d.uuid with
    | none => { d with uuid := some fresh }
    | some _ => d
  if d'.amount < 0 then (d', some .negativeDetailAmount) else (d', none)

/-- The sum `for _, d := range t.Details { sum += d.Amount }`. -/
def detailsSum (ds : List Details) : Int :=
  ds.foldl (fun acc d => acc + d.amount) 0

/-- `Transaction.BeforeCreate` (expenses.go): assign a fresh UUID when absent;
when the detail set is non-empty, compare the detail sum against the
absolute value of the amount and fail on mismatch, citing both sums. -/
def transactionBeforeCreate (fresh : String) (t : Transaction) : Transaction × Option Err :=
  let t' := match t.uuid with
    | none => { t with uuid := some fresh }
    | some _ => t
  let ds := detailsList t'.details
  if ds.length > 0 then
    let sum := detailsSum ds
    let amount := if t'.amount < 0 then -t'.amount else t'.amount
    if sum ≠ amount then (t', some (.detailsMismatch amount sum)) else (t', none)
  else (t', none)

/-! ## Label tree flattening (`Labels.Push`, expenses.go)

The Go code builds `distincts`, a name-keyed map filled with insert-if-absent
semantics. The map is modelled as an association list to which a binding is
appended exactly when its key was absent: this represents the same finite map
(same keys, same values, first insertion wins) while staying deterministic. -/

/-- Whether the name-keyed map already holds a binding for `k`
(`_, ok := distincts[k]`). -/
def containsKey (m : List (String × Label)) (k : String) : Bool :=
  m.any (fun p => p.1 == k)

/-- `if _, ok := distincts[k]; !ok { distincts[k] = v }`. -/
def insertIfAbsent (m : List (String × Label)) (k : String) (v : Label) :
    List (String × Label) :=
  if containsKey m k then m else m ++ [(k, v)]

/-- The ancestor walk of `Labels.Push`:
`for parent = lb.Parent; parent != nil; parent = parent.Parent { insert }`. -/
def walkChain (m : List (String × Label)) : Option Label → List (String × Label)
  | none => m
  | some (.mk n pn f h p) => walkChain (insertIfAbsent m n (.mk n pn f h p)) p

/-- The body of the `for i, lb := range *l` loop of `Labels.Push`, as far as it
touches `distincts`: walk the ancestors, then insert the label itself. -/
def flattenStep (m : List (String × Label)) (lb : Label) : List (String × Label) :=
  insertIfAbsent (walkChain m lb.parent) lb.name lb

/-- The `distincts` map of `Labels.Push` after the whole loop. The written
list is its range (the Go code copies the map values out in unspecified
order; every claim under study is order-insensitive on this list). -/
def labelsFlatten (ls : List Label) : List (String × Label) :=
  ls.foldl flattenStep []

/-- The in-place update of `Labels.Push` on the input slice: each element
carrying a parent object gets `ParentName` set from the parent's name
(`(*l)[i].ParentName = NullString{...}`). -/
def syncParents (ls : List Label) : List Label :=
  ls.map (fun lb =>
    match lb.parent with
    | some p => lb.setParentName ⟨p.name, true⟩
    | none => lb)

/-- The parent chain of a label as a list, nearest ancestor first: the nodes
the Go ancestor walks visit, in order. -/
def chainLabels : Option Label → List Label
  | none => []
  | some (.mk n pn f h p) => .mk n pn f h p :: chainLabels p

/-- The spec-side encounter sequence of the flattening pass (spec section 4.1:
for each input label walk its parent pointers inserting every visited node,
then insert the label itself): ancestors of each element first, then the
element, elements in input order. -/
def encounters (ls : List Label) : List Label :=
  ls.flatMap (fun l => chainLabels l.parent ++ [l])

/-- Reading the association-list model of `distincts` at a name. -/
def lookupName (m : List (String × Label)) (n : String) : Option Label :=
  (m.find? (fun p => p.1 == n)).map Prod.snd

/-! ## Reference extraction (`Transactions.Push`, expenses.go)

The Go function keeps two seen-sets (`seenActors`, `seenLabels`, maps used
only through membership, modelled as lists of names) and two output slices
(`everyActor`, `everyLabel`), mutated by the closures `catchActor` and
`catchLabel` while the loop ranges over the transactions. -/

/-- The mutable state of `Transactions.Push` during extraction. -/
structure ExtractState where
  seenActors : List String
  everyActor : List Actor
  seenLabels : List String
  everyLabel : List Label

/-- The `catchActor` closure: record an actor whose name is new and
non-empty. -/
def catchActor (s : ExtractState) (a : Actor) : ExtractState :=
  if ¬ s.seenActors.contains a.name ∧ a.name ≠ "" then
    { s with seenActors := a.name :: s.seenActors,
             everyActor := s.everyActor ++ [a] }
  else s

/-- The `catchLabel` closure: record a label whose name is new and non-empty,
then append its whole ancestor chain. The chain elements are appended without
a membership test and without entering `seenLabels`. -/
def catchLabel (s : ExtractState) (l : Label) : ExtractState :=
  if ¬ s.seenLabels.contains l.name ∧ l.name ≠ "" then
    { s with seenLabels := l.name :: s.seenLabels,
             everyLabel := s.everyLabel ++ l :: chainLabels l.parent }
  else s

/-- One detail of the `for _, ls := range trx.Details` loop: prefer the
embedded label object, else synthesize a bare label from the name. -/
def catchDetailLabel (s : ExtractState) (d : Details) : ExtractState :=
  match d.label with
  | some l => catchLabel s l
  | none => if d.labelName ≠ "" then catchLabel s (Label.bare d.labelName) else s

/-- The body of the `for _, trx := range *t` loop: receiver, sender, the
transaction label, then each detail label. -/
def extractStep (s : ExtractState) (t : Transaction) : ExtractState :=
  let s1 := match t.receiver with
    | some r => catchActor s r
    | none => if t.receiverName ≠ "" then catchActor s ⟨t.receiverName, 0, ""⟩ else s
  let s2 := match t.sender with
    | some a => catchActor s1 a
    | none => if t.senderName ≠ "" then catchActor s1 ⟨t.senderName, 0, ""⟩ else s1
  let s3 := match t.label with
    | some l => catchLabel s2 l
    | none => if t.labelName ≠ "" then catchLabel s2 (Label.bare t.labelName) else s2
  (detailsList t.details).foldl catchDetailLabel s3

/-- The whole extraction phase of `Transactions.Push`. -/
def extractRefs (ts : List Transaction) : ExtractState :=
  ts.foldl extractStep ⟨[], [], [], []⟩

/-- Spec side: the receiver reference of a transaction, as a zero- or
one-element list; an embedded object is taken as is, a bare non-empty name
synthesizes a minimal actor. -/
def receiverRef (t : Transaction) : List Actor :=
  match t.receiver with
  | some r => [r]
  | none => if t.receiverName ≠ "" then [⟨t.receiverName, 0, ""⟩] else []

/-- Spec side: the sender reference of a transaction. -/
def senderRef (t : Transaction) : List Actor :=
  match t.sender with
  | some a => [a]
  | none => if t.senderName ≠ "" then [⟨t.senderName, 0, ""⟩] else []

/-- Spec side: the transaction's own label reference. -/
def transactionLabelRef (t : Transaction) : List Label :=
  match t.label with
  | some l => [l]
  | none => if t.labelName ≠ "" then [Label.bare t.labelName] else []

/-- Spec side: one detail's label reference. -/
def detailLabelRef (d : Details) : List Label :=
  match d.label with
  | some l => [l]
  | none => if d.labelName ≠ "" then [Label.bare d.labelName] else []

/-- Spec side: the sequence of actor references one transaction contributes,
in the order the code visits them (receiver first, then sender). -/
def actorRefs (t : Transaction) : List Actor :=
  receiverRef t ++ senderRef t

/-- Spec side: the sequence of direct label references one transaction
contributes (the transaction label, then each detail label). -/
def labelRefs (t : Transaction) : List Label :=
  transactionLabelRef t ++ (detailsList t.details).flatMap detailLabelRef

/-- Spec side: first-occurrence-wins deduplication by name that also drops
empty names, over a flat list of actors. -/
def dedupActors (seen : List String) : List Actor → List Actor
  | [] => []
  | a :: rest =>
    if ¬ seen.contains a.name ∧ a.name ≠ "" then
      a :: dedupActors (a.name :: seen) rest
    else dedupActors seen rest

/-- Spec side: the label collection the extractor actually builds from the
flat list of direct references: each non-empty name is captured at most once
(first occurrence wins), and a captured label is followed by its whole
ancestor chain, appended unconditionally. -/
def collectLabels (seen : List String) : List Label → List Label
  | [] => []
  | l :: rest =>
    if ¬ seen.contains l.name ∧ l.name ≠ "" then
      (l :: chainLabels l.parent) ++ collectLabels (l.name :: seen) rest
    else collectLabels seen rest

/-- The seen-set evolution paired with `dedupActors`. -/
def seenAfterActors (seen : List String) : List Actor → List String
  | [] => seen
  | a :: rest =>
    if ¬ seen.contains a.name ∧ a.name ≠ "" then
      seenAfterActors (a.name :: seen) rest
    else seenAfterActors seen rest

/-- The seen-set evolution paired with `collectLabels`. -/
def seenAfterLabels (seen : List String) : List Label → List String
  | [] => seen
  | l :: rest =>
    if ¬ seen.contains l.name ∧ l.name ≠ "" then
      seenAfterLabels (l.name :: seen) rest
    else seenAfterLabels seen rest

/-! ## The write path as a trace of storage operations

`CreateInBatches` with its `ON CONFLICT` clause is the boundary to the
storage engine. Each call becomes one `WriteOp`; the engine is an oracle
`WriteOp → Option Err` (`none` = success). The push functions return the
trace of operations issued, in order, together with the returned error. -/

/-- The `clause.OnConflict` variants the module uses. -/
inductive Conflict where
  /-- `clause.OnConflict{DoNothing: true}` -/
  | doNothing
  /-- `clause.OnConflict{UpdateAll: true}` -/
  | updateAll
  /-- `clause.OnConflict{Columns: [target], DoUpdates: cols}` -/
  | updateCols (target : String) (cols : List String)
deriving DecidableEq, Repr

/-- One `CreateInBatches` call with its conflict clause and batch size. -/
inductive WriteOp where
  | createActors (rows : List Actor) (c : Conflict) (batch : Int)
  | createLabels (rows : List Label) (c : Conflict) (batch : Int)
  | createTransactions (rows : List Transaction) (c : Conflict) (batch : Int)

/-- The update column set of `Labels.Push` in replace mode (expenses.go). -/
def labelUpdateColumns : List String :=
  ["parent_name", "flags", "headers", "updated_at"]

/-- The update column set of `Transactions.Push` in replace mode
(expenses.go). -/
def transactionUpdateColumns : List String :=
  ["label_name", "sender_name", "receiver_name", "flags", "headers", "updated_at"]

/-- `Actors.Push`: one create call, skip-on-conflict when `JustAppend`,
update-all-on-conflict otherwise. -/
def actorsPushOp (as : List Actor) (ctx : PushContext) : WriteOp :=
  .createActors as (if ctx.justAppend then .doNothing else .updateAll) ctx.batchSize

/-- `Labels.Push`: flatten (and range over the `distincts` map), then one
create call over the flattened rows with the mode-dependent clause. -/
def labelsPushOp (ls : List Label) (ctx : PushContext) : WriteOp :=
  .createLabels ((labelsFlatten ls).map Prod.snd)
    (if ctx.justAppend then .doNothing else .updateCols "name" labelUpdateColumns)
    ctx.batchSize

/-- `Transactions.Push` (expenses.go): extract the referenced actors and
labels, push them first with `JustAppend` forced on, then push the
transactions with the caller's mode. On a dependency failure the error is
returned at once. Result: the trace of issued operations and the error. -/
def transactionsPush (exec : WriteOp → Option Err) (ts : List Transaction)
    (ctx : PushContext) : List WriteOp × Option Err :=
  let st := extractRefs ts
  let subctx := { ctx with justAppend := true }
  let aop := actorsPushOp st.everyActor subctx
  match exec aop with
  | some e => ([aop], some e)
  | none =>
    let lop := labelsPushOp st.everyLabel subctx
    match exec lop with
    | some e => ([aop, lop], some e)
    | none =>
      let top := WriteOp.createTransactions ts
        (if ctx.justAppend then .doNothing else .updateCols "uuid" transactionUpdateColumns)
        ctx.batchSize
      ([aop, lop, top], exec top)

/-! ## Stored rows and the replace-mode merge

The storage engine itself is outside the repository. Its update-on-conflict
behaviour is modelled from the spec (section 4.4 and section 6: on a
primary-key conflict overwrite exactly the columns named in the clause,
leaving every other column of the stored row untouched), applied to full row
types carrying every column of the two tables, including the timestamps. -/

/-- The `transactions` table row, one field per column (gorm column names). -/
structure TransactionRow where
  uuid : String
  date : String
  amount : Int
  label_name : String
  sender_name : String
  receiver_name : String
  flags : Nat
  headers : String
  created_at : Int
  updated_at : Int
deriving DecidableEq, Repr

/-- The `labels` table row, one field per column (gorm column names). -/
structure LabelRow where
  name : String
  parent_name : NullString
  flags : Nat
  headers : String
  created_at : Int
  updated_at : Int
deriving DecidableEq, Repr

/-- Modelled from the spec: the storage engine's conflict resolution for an
`ON CONFLICT ... DO UPDATE cols` clause on the transactions table — the
stored row keeps every column not named in `cols` and takes the incoming
value on every column that is (the engine itself is an external collaborator,
spec sections 4.4 and 6). -/
def mergeTransactionRow (cols : List String) (old new : TransactionRow) :
    TransactionRow where
  uuid := old.uuid
  date := if "date" ∈ cols then new.date else old.date
  amount := if "amount" ∈ cols then new.amount else old.amount
  label_name := if "label_name" ∈ cols then new.label_name else old.label_name
  sender_name := if "sender_name" ∈ cols then new.sender_name else old.sender_name
  receiver_name := if "receiver_name" ∈ cols then new.receiver_name else old.receiver_name
  flags := if "flags" ∈ cols then new.flags else old.flags
  headers := if "headers" ∈ cols then new.headers else old.headers
  created_at := if "created_at" ∈ cols then new.created_at else old.created_at
  updated_at := if "updated_at" ∈ cols then new.updated_at else old.updated_at

/-- Modelled from the spec: the same conflict resolution on the labels table
(`name` is the conflict target, so the stored key is kept). -/
def mergeLabelRow (cols : List String) (old new : LabelRow) : LabelRow where
  name := old.name
  parent_name := if "parent_name" ∈ cols then new.parent_name else old.parent_name
  flags := if "flags" ∈ cols then new.flags else old.flags
  headers := if "headers" ∈ cols then new.headers else old.headers
  created_at := if "created_at" ∈ cols then new.created_at else old.created_at
  updated_at := if "updated_at" ∈ cols then new.updated_at else old.updated_at

/-! ## Schema management (`Install` / `Uninstall`, expenses.go) -/

/-- The four entity tables. -/
inductive TableId where
  | actor | label | transaction | detail
deriving DecidableEq, Repr

/-- `var tables` (expenses.go): the shared, ordered table list both `Install`
and `Uninstall` range over. -/
def tables : List TableId :=
  [.actor, .label, .transaction, .detail]

/-- The shared loop shape of `Install` and `Uninstall`: act on each table in
order, abort on the first failure returning its error unchanged. Result: the
tables acted on (in order) and the error. -/
def runSteps (act : TableId → Option Err) : List TableId → List TableId × Option Err
  | [] => ([], none)
  | t :: rest =>
    match act t with
    | some e => ([t], some e)
    | none =>
      let r := runSteps act rest
      (t :: r.1, r.2)

/-- `Install` (expenses.go): `AutoMigrate` each table of `tables` in order. -/
def install (migrate : TableId → Option Err) : List TableId × Option Err :=
  runSteps migrate tables

/-- `Uninstall` (expenses.go): `DropTable` each table of the same `tables`
list, in the same order. -/
def uninstall (drop : TableId → Option Err) : List TableId × Option Err :=
  runSteps drop tables

/-! ## JSON serialization (`ToJson` / `FromJson`, the struct tags, and the
custom `NullString` (un)marshallers)

JSON documents are modelled as a tree; `ToJson` becomes the tree an entity
marshals to (field order and names follow the struct tags) plus a
deterministic byte rendering, and `FromJson` becomes a tree parser following
the Go decoder: a missing field leaves the zero value, a `null` into a
pointer leaves it nil, a wrongly-typed value is an error. The textual
escaping of string scalars is abstracted (it never changes on a re-encode,
which is all the round-trip property observes). -/

/-- A JSON document. -/
inductive Json where
  | null
  | str (s : String)
  | num (n : Int)
  | arr (xs : List Json)
  | obj (fields : List (String × Json))

mutual

/-- A deterministic compact rendering of a JSON tree to bytes. -/
def render : Json → String
  | .null => "null"
  | .str s => "\x22" ++ s ++ "\x22"
  | .num n => toString n
  | .arr xs => "[" ++ renderItems xs ++ "]"
  | .obj fs => "\x7b" ++ renderFields fs ++ "\x7d"

/-- Comma-separated array items. -/
def renderItems : List Json → String
  | [] => ""
  | [j] => render j
  | j :: rest => render j ++ "," ++ renderItems rest

/-- Comma-separated object members. -/
def renderFields : List (String × Json) → String
  | [] => ""
  | [(k, j)] => "\x22" ++ k ++ "\x22:" ++ render j
  | (k, j) :: rest => "\x22" ++ k ++ "\x22:" ++ render j ++ "," ++ renderFields rest

end

/-- `NullString.MarshalJSON` (expenses.go): the held string when valid, the
JSON literal `null` otherwise. -/
def marshalNullString (ns : NullString) : Json :=
  if ns.valid then .str ns.string else .null

/-- `NullString.UnmarshalJSON` (expenses.go): `Valid` becomes whether the
input reads `null`; decoding `null` leaves the fresh zero string, a JSON
string is taken as is, anything else is a decode error. -/
def parseNullString : Json → Option NullString
  | .null => some ⟨"", false⟩
  | .str s => some ⟨s, true⟩
  | _ => none

/-- The JSON object members of a `Details` value, per the struct tags
(`uuid`, the owning transaction, and the embedded objects carry tag `-`). -/
def marshalDetails (d : Details) : Json :=
  .obj [("label", .str d.labelName), ("amount", .num d.amount),
        ("flags", .num (Int.ofNat d.flags)), ("headers", .str d.headers)]

/-- The JSON tree of a `Transaction` value, per the struct tags: `uuid` is
omitted when nil (`omitempty` on a pointer), a nil `Details` slice encodes as
`null`, and the embedded `Label`/`Sender`/`Receiver` objects carry tag `-`. -/
def marshalTransaction (t : Transaction) : Json :=
  .obj ((match t.uuid with
         | some u => [("uuid", Json.str u)]
         | none => []) ++
        [("date", .str t.date), ("amount", .num t.amount),
         ("label", .str t.labelName), ("sender", .str t.senderName),
         ("receiver", .str t.receiverName), ("flags", .num (Int.ofNat t.flags)),
         ("headers", .str t.headers),
         ("details", match t.details with
           | none => Json.null
           | some ds => .arr (ds.map marshalDetails))])

/-- The JSON object members of a `Label` value, per the struct tags
(the in-memory `Parent` pointer carries tag `-`). -/
def labelFields (l : Label) : List (String × Json) :=
  [("name", .str l.name), ("parent", marshalNullString l.parentName),
   ("flags", .num (Int.ofNat l.flags)), ("headers", .str l.headers)]

/-- The JSON tree of a `Label` value. -/
def marshalLabel (l : Label) : Json :=
  .obj (labelFields l)

/-- A member of a JSON object, by key. -/
def getField (fs : List (String × Json)) (k : String) : Option Json :=
  (fs.find? (fun p => p.1 == k)).map Prod.snd

/-- Decode a `string` struct field: absent leaves the zero value. -/
def asString : Option Json → Option String
  | none => some ""
  | some (.str s) => some s
  | some _ => none

/-- Decode an `int64` struct field: absent leaves the zero value. -/
def asInt : Option Json → Option Int
  | none => some 0
  | some (.num n) => some n
  | some _ => none

/-- Decode a `uint16` struct field: absent leaves the zero value, a negative
number is a decode error. -/
def asNat : Option Json → Option Nat
  | none => some 0
  | some (.num (.ofNat m)) => some m
  | some _ => none

/-- Decode a `*string` struct field: absent or `null` leaves the pointer
nil. -/
def asOptString : Option Json → Option (Option String)
  | none => some none
  | some .null => some none
  | some (.str s) => some (some s)
  | some _ => none

/-- Decode one `Details` object: the fields with tag `-` (its uuid, the
owning transaction's uuid, the embedded objects) keep their zero values. -/
def parseDetails : Json → Option Details
  | .obj fs => do
    let labelName ← asString (getField fs "label")
    let amount ← asInt (getField fs "amount")
    let flags ← asNat (getField fs "flags")
    let headers ← asString (getField fs "headers")
    pure ⟨none, "", labelName, amount, flags, headers, none⟩
  | _ => none

/-- Decode a JSON array of `Details` objects elementwise. -/
def parseDetailsList : List Json → Option (List Details)
  | [] => some []
  | j :: rest => do
    let d ← parseDetails j
    let ds ← parseDetailsList rest
    pure (d :: ds)

/-- Decode the `details` field: absent or `null` leaves the slice nil. -/
def parseDetailsField : Option Json → Option (Option (List Details))
  | none => some none
  | some .null => some none
  | some (.arr xs) => (parseDetailsList xs).map some
  | some _ => none

/-- Decode one `Transaction` object (`FromJson` into a `Transaction`). -/
def parseTransaction : Json → Option Transaction
  | .obj fs => do
    let uuid ← asOptString (getField fs "uuid")
    let date ← asString (getField fs "date")
    let amount ← asInt (getField fs "amount")
    let labelName ← asString (getField fs "label")
    let senderName ← asString (getField fs "sender")
    let receiverName ← asString (getField fs "receiver")
    let flags ← asNat (getField fs "flags")
    let headers ← asString (getField fs "headers")
    let details ← parseDetailsField (getField fs "details")
    pure ⟨uuid, date, amount, labelName, senderName, receiverName, flags, headers,
          none, none, none, details⟩
  | _ => none

/-- What a decode of an encoded `Details` reconstructs: the serialized fields
survive, the tag `-` fields come back as zero values. -/
def cleanDetails (d : Details) : Details :=
  ⟨none, "", d.labelName, d.amount, d.flags, d.headers, none⟩

/-- What a decode of an encoded `Transaction` reconstructs. -/
def cleanTransaction (t : Transaction) : Transaction :=
  ⟨t.uuid, t.date, t.amount, t.labelName, t.senderName, t.receiverName, t.flags,
   t.headers, none, none, none, (t.details.map (List.map cleanDetails))⟩

/-! # Theorems -/

/-- Helper: absence of a key read through `lookupName`. -/
theorem containsKey_false_iff (m : List (String × Label)) (k : String) :
    containsKey m k = false ↔ lookupName m k = none := by
  simp [containsKey, lookupName, List.any_eq_true, List.find?_eq_none]

/-- Looking up after an insert-if-absent: the old binding wins, the new one
answers only for its own, previously absent key. -/
theorem lookupName_insertIfAbsent (m : List (String × Label)) (k : String) (v : Label)
    (n : String) :
    lookupName (insertIfAbsent m k v) n =
      (lookupName m n).or (if k = n then some v else none) := by
  unfold insertIfAbsent
  by_cases hc : containsKey m k
  · rw [if_pos hc]
    rcases hx : lookupName m n with _ | w
    · rw [Option.none_or]
      by_cases hkn : k = n
      · subst hkn
        rw [← containsKey_false_iff] at hx
        rw [hx] at hc; exact absurd hc (by simp)
      · simp [hkn, hx]
    · simp [hx]
  · rw [if_neg hc]
    unfold lookupName
    rw [List.find?_append]
    rcases hx : List.find? (fun p => p.1 == n) m with _ | w
    · simp only [hx, Option.none_or, Option.map_none]
      by_cases hkn : k = n
      · subst hkn; simp [List.find?]
      · simp [List.find?, hkn, (by simpa using hkn : (k == n) = false)]
    · simp [hx]

/-- The ancestor walk, read through `lookupName`: existing bindings win, the
walked chain answers in visit order. -/
theorem lookupName_walkChain (m : List (String × Label)) (o : Option Label) (n : String) :
    lookupName (walkChain m o) n =
      (lookupName m n).or ((chainLabels o).find? (fun l => l.name == n)) := by
  induction m, o using walkChain.induct with
  | case1 m =>
    simp [walkChain, chainLabels]
  | case2 m nm pn f h p ih =>
    rw [walkChain, ih, lookupName_insertIfAbsent, Option.or_assoc, chainLabels]
    by_cases hnm : nm = n
    · subst hnm
      simp [List.find?, Label.name]
    · simp [List.find?, Label.name, hnm, (by simpa using hnm : (nm == n) = false)]

/-- One loop iteration of the flattening pass, read through `lookupName`. -/
theorem lookupName_flattenStep (m : List (String × Label)) (lb : Label) (n : String) :
    lookupName (flattenStep m lb) n =
      (lookupName m n).or
        ((chainLabels lb.parent ++ [lb]).find? (fun l => l.name == n)) := by
  rw [flattenStep, lookupName_insertIfAbsent, lookupName_walkChain, Option.or_assoc,
    List.find?_append]
  congr 1
  by_cases hnm : lb.name = n
  · subst hnm; simp [List.find?]
  · simp [List.find?, hnm, (by simpa using hnm : (lb.name == n) = false)]

/-- The whole flattening loop from any starting map, read through
`lookupName`. -/
theorem lookupName_foldl_flattenStep (ls : List Label) (m : List (String × Label))
    (n : String) :
    lookupName (ls.foldl flattenStep m) n =
      (lookupName m n).or ((encounters ls).find? (fun l => l.name == n)) := by
  induction ls generalizing m with
  | nil => simp [encounters]
  | cons lb rest ih =>
    rw [List.foldl_cons, ih, lookupName_flattenStep, Option.or_assoc]
    simp only [encounters, List.flatMap_cons, List.find?_append]

/-- Insert-if-absent keeps the keys of the map free of duplicates. -/
theorem nodup_insertIfAbsent (m : List (String × Label)) (k : String) (v : Label)
    (hm : (m.map Prod.fst).Nodup) : ((insertIfAbsent m k v).map Prod.fst).Nodup := by
  unfold insertIfAbsent
  by_cases hc : containsKey m k
  · rwa [if_pos hc]
  · rw [if_neg hc]
    have hk : k ∉ m.map Prod.fst := by
      simp only [containsKey, Bool.not_eq_true] at hc
      simp only [List.any_eq_false] at hc
      simp only [List.mem_map]
      rintro ⟨p, hp, rfl⟩
      simpa using hc p hp
    simp only [List.map_append, List.map_cons, List.map_nil]
    exact List.Nodup.append hm (by simp) (by simpa [List.disjoint_right] using hk)

/-- The ancestor walk keeps the keys free of duplicates. -/
theorem nodup_walkChain (m : List (String × Label)) (o : Option Label)
    (hm : (m.map Prod.fst).Nodup) : ((walkChain m o).map Prod.fst).Nodup := by
  induction m, o using walkChain.induct with
  | case1 m => simpa [walkChain] using hm
  | case2 m nm pn f h p ih =>
    rw [walkChain]
    exact ih (nodup_insertIfAbsent _ _ _ hm)

/-- The whole flattening loop keeps the keys free of duplicates. -/
theorem nodup_foldl_flattenStep (ls : List Label) (m : List (String × Label))
    (hm : (m.map Prod.fst).Nodup) : ((ls.foldl flattenStep m).map Prod.fst).Nodup := by
  induction ls generalizing m with
  | nil => simpa using hm
  | cons lb rest ih =>
    exact ih _ (nodup_insertIfAbsent _ _ _ (nodup_walkChain _ _ hm))

/-- C2. The flattening step of `Labels.Push`: no two entries of the
deduplicated map share a name; the entry stored under a name is the first
label of that name in the encounter sequence (each input's ancestor chain,
nearest first, followed by the input itself, inputs in order) — so the map
holds exactly every input label and every label reachable through the
in-memory parent chains, first occurrence winning; and every original input
element that carries a parent object gets its `ParentName` field set to that
parent's name. -/
theorem c2_labels_flatten (ls : List Label) :
    ((labelsFlatten ls).map Prod.fst).Nodup ∧
    (∀ n, lookupName (labelsFlatten ls) n = (encounters ls).find? (fun l => l.name == n)) ∧
    (∀ (i : ℕ) (lb p : Label), ls[i]? = some lb → lb.parent = some p →
       ∃ lb', (syncParents ls)[i]? = some lb' ∧ lb'.parentName = ⟨p.name, true⟩) := by
  refine ⟨nodup_foldl_flattenStep ls [] (by simp), fun n => ?_, fun i lb p hi hp => ?_⟩
  · rw [labelsFlatten, lookupName_foldl_flattenStep]
    simp [lookupName]
  · refine ⟨lb.setParentName ⟨p.name, true⟩, ?_, ?_⟩
    · simp [syncParents, List.getElem?_map, hi, hp]
    · cases lb; simp [Label.setParentName, Label.parentName]

/-- Helper: the UUID-filling first step of `Transaction.BeforeCreate` touches
no other field. -/
theorem transaction_fillUuid_fields (fresh : String) (t : Transaction) :
    (match t.uuid with
     | none => { t with uuid := some fresh }
     | some _ => t).details = t.details ∧
    (match t.uuid with
     | none => { t with uuid := some fresh }
     | some _ => t).amount = t.amount := by
  cases t.uuid <;> simp

/-- C1. `Transaction.BeforeCreate`: for a non-empty detail set, validation
fails if and only if the sum of the detail amounts differs from the absolute
value of the transaction amount, and the error cites the expected sum
(`|amount|`) and the actual one; for an empty detail set no check runs and
validation succeeds. -/
theorem c1_transaction_details_sum (fresh : String) (t : Transaction) :
    ((transactionBeforeCreate fresh t).2 ≠ none ↔
       detailsList t.details ≠ [] ∧ detailsSum (detailsList t.details) ≠ |t.amount|) ∧
    (detailsList t.details ≠ [] → detailsSum (detailsList t.details) ≠ |t.amount| →
       (transactionBeforeCreate fresh t).2 =
         some (.detailsMismatch |t.amount| (detailsSum (detailsList t.details)))) ∧
    (detailsList t.details = [] → (transactionBeforeCreate fresh t).2 = none) := by
  obtain ⟨hd, ha⟩ := transaction_fillUuid_fields fresh t
  have habs : (if (match t.uuid with
        | none => { t with uuid := some fresh }
        | some _ => t).amount < 0 then
        -(match t.uuid with
          | none => { t with uuid := some fresh }
          | some _ => t).amount
      else (match t.uuid with
        | none => { t with uuid := some fresh }
        | some _ => t).amount) = |t.amount| := by
    rw [ha]
    rcases lt_or_ge t.amount 0 with h | h
    · simp [h, abs_of_neg h]
    · simp [not_lt.mpr h, abs_of_nonneg h]
  unfold transactionBeforeCreate
  simp only [hd, habs]
  by_cases hds : detailsList t.details = []
  · simp [hds]
  · have hlen : 0 < (detailsList t.details).length := List.length_pos.mpr hds
    by_cases hsum : detailsSum (detailsList t.details) = |t.amount|
    · simp [hds, hlen, hsum]
    · simp [hds, hlen, hsum]

/-- C6. `Details.BeforeCreate`: a negative amount fails with the
negative-amount error (independently of any transaction total); an absent
UUID is replaced by the fresh one before the amount check, so the returned
record carries it even on failure; a non-negative amount passes. -/
theorem c6_detail_validation (fresh : String) (d : Details) :
    ((detailsBeforeCreate fresh d).2 = some .negativeDetailAmount ↔ d.amount < 0) ∧
    (d.uuid = none → (detailsBeforeCreate fresh d).1.uuid = some fresh) ∧
    (0 ≤ d.amount → (detailsBeforeCreate fresh d).2 = none) := by
  have hfill : (match d.uuid with
      | none => { d with uuid := some fresh }
      | some _ => d).amount = d.amount := by
    cases d.uuid <;> simp
  unfold detailsBeforeCreate
  simp only [hfill]
  refine ⟨?_, fun hu => ?_, fun hnn => ?_⟩
  · by_cases hneg : d.amount < 0 <;> simp [hneg]
  · by_cases hneg : d.amount < 0 <;> simp [hu, hneg]
  · simp [not_lt.mpr hnn]

/-- C7. `Actor.BeforeCreate` and `Label.BeforeCreate`: creation fails with
the empty-name error exactly when the name is the empty string; a non-empty
name passes. -/
theorem c7_empty_name_validation (a : Actor) (l : Label) :
    (actorBeforeCreate a = some .emptyActorName ↔ a.name = "") ∧
    (actorBeforeCreate a = none ↔ a.name ≠ "") ∧
    ((labelBeforeCreate l).2 = some .emptyLabelName ↔ l.name = "") ∧
    ((labelBeforeCreate l).2 = none ↔ l.name ≠ "") := by
  refine ⟨?_, ?_, ?_, ?_⟩ <;>
    · by_cases hn : a.name = "" <;> by_cases hl : l.name = "" <;>
        cases hp : l.parent <;>
          simp [actorBeforeCreate, labelBeforeCreate, hn, hl, hp]

/-- C5. Replace mode updates only the declared mutable columns: on a
transactions-table conflict exactly `label_name`, `sender_name`,
`receiver_name`, `flags`, `headers` and `updated_at` take the incoming
values while `uuid`, `date`, `amount` and `created_at` keep the stored ones;
on a labels-table conflict exactly `parent_name`, `flags`, `headers` and
`updated_at` take the incoming values while `name` and `created_at` keep the
stored ones. -/
theorem c5_replace_mode_columns (oldT newT : TransactionRow) (oldL newL : LabelRow) :
    mergeTransactionRow transactionUpdateColumns oldT newT =
      { oldT with label_name := newT.label_name, sender_name := newT.sender_name,
                  receiver_name := newT.receiver_name, flags := newT.flags,
                  headers := newT.headers, updated_at := newT.updated_at } ∧
    mergeLabelRow labelUpdateColumns oldL newL =
      { oldL with parent_name := newL.parent_name, flags := newL.flags,
                  headers := newL.headers, updated_at := newL.updated_at } := by
  constructor <;>
    simp [mergeTransactionRow, mergeLabelRow, transactionUpdateColumns,
      labelUpdateColumns]

/-- Helper: the install/uninstall loop visits every table when every step
succeeds. -/
theorem runSteps_all_ok (act : TableId → Option Err) (l : List TableId)
    (h : ∀ t ∈ l, act t = none) : runSteps act l = (l, none) := by
  induction l with
  | nil => rfl
  | cons t rest ih =>
    rw [runSteps, h t (by simp)]
    simp [ih (fun u hu => h u (by simp [hu]))]

/-- Helper: the install/uninstall loop stops at the first failing table and
returns its error unchanged. -/
theorem runSteps_first_fail (act : TableId → Option Err) (pre : List TableId)
    (t : TableId) (post : List TableId) (e : Err)
    (hpre : ∀ u ∈ pre, act u = none) (ht : act t = some e) :
    runSteps act (pre ++ t :: post) = (pre ++ [t], some e) := by
  induction pre with
  | nil => simp [runSteps, ht]
  | cons u rest ih =>
    rw [List.cons_append, runSteps, hpre u (by simp)]
    simp [ih (fun v hv => hpre v (by simp [hv]))]

/-- C9 counterexample: with a storage oracle that succeeds on every step,
`Uninstall` drops the tables in the order Actor, Label, Transaction, Detail —
the same forward order `Install` uses, not the reverse of it. -/
theorem c9_counterexample :
    (uninstall (fun _ => none)).1 = [.actor, .label, .transaction, .detail] ∧
    (uninstall (fun _ => none)).1 ≠ ((install (fun _ => none)).1).reverse := by
  constructor <;> decide

/-- C9 (amended). `Install` creates the tables in the order Actor, Label,
Transaction, Detail; `Uninstall` drops them in that same order (the code
ranges over the shared `tables` list both times, it does not reverse it);
in both, the first failure aborts the remaining steps and the underlying
error is returned unchanged. -/
theorem c9_install_uninstall_order (migrate dropT : TableId → Option Err) :
    ((∀ t ∈ tables, migrate t = none) →
       install migrate = ([.actor, .label, .transaction, .detail], none)) ∧
    ((∀ t ∈ tables, dropT t = none) →
       uninstall dropT = ([.actor, .label, .transaction, .detail], none)) ∧
    (∀ pre t post e, tables = pre ++ t :: post → (∀ u ∈ pre, migrate u = none) →
       migrate t = some e → install migrate = (pre ++ [t], some e)) ∧
    (∀ pre t post e, tables = pre ++ t :: post → (∀ u ∈ pre, dropT u = none) →
       dropT t = some e → uninstall dropT = (pre ++ [t], some e)) := by
  refine ⟨fun h => ?_, fun h => ?_, fun pre t post e hsplit hpre ht => ?_,
    fun pre t post e hsplit hpre ht => ?_⟩
  · exact runSteps_all_ok migrate tables h
  · exact runSteps_all_ok dropT tables h
  · rw [install, hsplit]; exact runSteps_first_fail migrate pre t post e hpre ht
  · rw [uninstall, hsplit]; exact runSteps_first_fail dropT pre t post e hpre ht

/-- C9 witness: the amended theorem at a concrete oracle that fails on the
`transactions` table: both loops run Actor, Label and stop at Transaction. -/
theorem c9_install_uninstall_order_witness :
    install (fun t => if t = .transaction then some (.storage 7) else none) =
      ([.actor, .label, .transaction], some (.storage 7)) ∧
    uninstall (fun t => if t = .transaction then some (.storage 7) else none) =
      ([.actor, .label, .transaction], some (.storage 7)) := by
  have h := c9_install_uninstall_order
    (fun t => if t = .transaction then some (.storage 7) else none)
    (fun t => if t = .transaction then some (.storage 7) else none)
  exact ⟨h.2.2.1 [.actor, .label] .transaction [.detail] (.storage 7) (by decide)
      (by decide) (by decide),
    h.2.2.2 [.actor, .label] .transaction [.detail] (.storage 7) (by decide)
      (by decide) (by decide)⟩

/-- C4. `Transactions.Push` always issues the extracted actor write first and
the extracted (and flattened) label write second, both with the
skip-on-conflict clause whatever `JustAppend` the caller passed; the
transaction write, under the caller's own mode, is issued only after both
dependency writes succeeded; a failing dependency write ends the call at
once with that error, the transactions unwritten. The three possible
traces: -/
theorem c4_push_dependency_order (exec : WriteOp → Option Err)
    (ts : List Transaction) (ctx : PushContext) :
    let st := extractRefs ts
    let aop := WriteOp.createActors st.everyActor .doNothing ctx.batchSize
    let lop := WriteOp.createLabels ((labelsFlatten st.everyLabel).map Prod.snd)
      .doNothing ctx.batchSize
    let top := WriteOp.createTransactions ts
      (if ctx.justAppend then .doNothing else .updateCols "uuid" transactionUpdateColumns)
      ctx.batchSize
    (∃ e, exec aop = some e ∧ transactionsPush exec ts ctx = ([aop], some e)) ∨
    (exec aop = none ∧
       ∃ e, exec lop = some e ∧ transactionsPush exec ts ctx = ([aop, lop], some e)) ∨
    (exec aop = none ∧ exec lop = none ∧
       transactionsPush exec ts ctx = ([aop, lop, top], exec top)) := by
  simp only [transactionsPush, actorsPushOp, labelsPushOp, if_pos]
  rcases ha : exec (WriteOp.createActors (extractRefs ts).everyActor .doNothing
      ctx.batchSize) with _ | e
  · rcases hl : exec (WriteOp.createLabels
        ((labelsFlatten (extractRefs ts).everyLabel).map Prod.snd) .doNothing
        ctx.batchSize) with _ | e
    · exact Or.inr (Or.inr ⟨rfl, rfl, by simp⟩)
    · exact Or.inr (Or.inl ⟨rfl, e, rfl, by simp⟩)
  · exact Or.inl ⟨e, rfl, by simp⟩

/-- Helper: `catchActor` leaves the label components alone. -/
theorem catchActor_labels (s : ExtractState) (a : Actor) :
    (catchActor s a).everyLabel = s.everyLabel ∧
    (catchActor s a).seenLabels = s.seenLabels := by
  unfold catchActor; split <;> simp

/-- Helper: `catchLabel` leaves the actor components alone. -/
theorem catchLabel_actors (s : ExtractState) (l : Label) :
    (catchLabel s l).everyActor = s.everyActor ∧
    (catchLabel s l).seenActors = s.seenActors := by
  unfold catchLabel; split <;> simp

/-- Helper: one `catchActor` call against the one-step dedup of its input. -/
theorem catchActor_spec (s : ExtractState) (a : Actor) :
    (catchActor s a).everyActor = s.everyActor ++ dedupActors s.seenActors [a] ∧
    (catchActor s a).seenActors = seenAfterActors s.seenActors [a] := by
  unfold catchActor
  by_cases hm : a.name ∈ s.seenActors <;> by_cases he : a.name = "" <;>
    simp [hm, he, dedupActors, seenAfterActors]

/-- Helper: folding `catchActor` over a flat actor list is first-wins
deduplication that drops empty names; the label components stay put. -/
theorem foldl_catchActor_spec (as : List Actor) (s : ExtractState) :
    (as.foldl catchActor s).everyActor = s.everyActor ++ dedupActors s.seenActors as ∧
    (as.foldl catchActor s).seenActors = seenAfterActors s.seenActors as ∧
    (as.foldl catchActor s).everyLabel = s.everyLabel ∧
    (as.foldl catchActor s).seenLabels = s.seenLabels := by
  induction as generalizing s with
  | nil => simp [dedupActors, seenAfterActors]
  | cons a rest ih =>
    obtain ⟨ih1, ih2, ih3, ih4⟩ := ih (catchActor s a)
    obtain ⟨hc1, hc2⟩ := catchActor_spec s a
    obtain ⟨hl1, hl2⟩ := catchActor_labels s a
    rw [List.foldl_cons]
    refine ⟨?_, ?_, by rw [ih3, hl1], by rw [ih4, hl2]⟩
    · rw [ih1, hc1, hc2, List.append_assoc]
      congr 1
      by_cases hm : a.name ∈ s.seenActors <;> by_cases he : a.name = "" <;>
        simp [dedupActors, seenAfterActors, hm, he]
    · rw [ih2, hc2]
      by_cases hm : a.name ∈ s.seenActors <;> by_cases he : a.name = "" <;>
        simp [seenAfterActors, hm, he]

/-- Helper: one `catchLabel` call against the one-step collection of its
input. -/
theorem catchLabel_spec (s : ExtractState) (l : Label) :
    (catchLabel s l).everyLabel = s.everyLabel ++ collectLabels s.seenLabels [l] ∧
    (catchLabel s l).seenLabels = seenAfterLabels s.seenLabels [l] := by
  unfold catchLabel
  by_cases hm : l.name ∈ s.seenLabels <;> by_cases he : l.name = "" <;>
    simp [hm, he, collectLabels, seenAfterLabels]

/-- Helper: folding `catchLabel` over a flat label list builds exactly the
collected sequence (captured labels followed by their unfiltered ancestor
chains); the actor components stay put. -/
theorem foldl_catchLabel_spec (ls : List Label) (s : ExtractState) :
    (ls.foldl catchLabel s).everyLabel = s.everyLabel ++ collectLabels s.seenLabels ls ∧
    (ls.foldl catchLabel s).seenLabels = seenAfterLabels s.seenLabels ls ∧
    (ls.foldl catchLabel s).everyActor = s.everyActor ∧
    (ls.foldl catchLabel s).seenActors = s.seenActors := by
  induction ls generalizing s with
  | nil => simp [collectLabels, seenAfterLabels]
  | cons l rest ih =>
    obtain ⟨ih1, ih2, ih3, ih4⟩ := ih (catchLabel s l)
    obtain ⟨hc1, hc2⟩ := catchLabel_spec s l
    obtain ⟨ha1, ha2⟩ := catchLabel_actors s l
    rw [List.foldl_cons]
    refine ⟨?_, ?_, by rw [ih3, ha1], by rw [ih4, ha2]⟩
    · rw [ih1, hc1, hc2, List.append_assoc]
      congr 1
      by_cases hm : l.name ∈ s.seenLabels <;> by_cases he : l.name = "" <;>
        simp [collectLabels, seenAfterLabels, hm, he]
    · rw [ih2, hc2]
      by_cases hm : l.name ∈ s.seenLabels <;> by_cases he : l.name = "" <;>
        simp [seenAfterLabels, hm, he]

/-- Helper: the dedup pass splits over list append. -/
theorem dedupActors_append (xs ys : List Actor) (seen : List String) :
    dedupActors seen (xs ++ ys) =
      dedupActors seen xs ++ dedupActors (seenAfterActors seen xs) ys := by
  induction xs generalizing seen with
  | nil => simp [dedupActors, seenAfterActors]
  | cons a rest ih =>
    by_cases hm : a.name ∈ seen <;> by_cases he : a.name = "" <;>
      simp [dedupActors, seenAfterActors, hm, he, ih]

/-- Helper: the actor seen-set evolution splits over list append. -/
theorem seenAfterActors_append (xs ys : List Actor) (seen : List String) :
    seenAfterActors seen (xs ++ ys) =
      seenAfterActors (seenAfterActors seen xs) ys := by
  induction xs generalizing seen with
  | nil => simp [seenAfterActors]
  | cons a rest ih =>
    by_cases hm : a.name ∈ seen <;> by_cases he : a.name = "" <;>
      simp [seenAfterActors, hm, he, ih]

/-- Helper: the label collection pass splits over list append. -/
theorem collectLabels_append (xs ys : List Label) (seen : List String) :
    collectLabels seen (xs ++ ys) =
      collectLabels seen xs ++ collectLabels (seenAfterLabels seen xs) ys := by
  induction xs generalizing seen with
  | nil => simp [collectLabels, seenAfterLabels]
  | cons l rest ih =>
    by_cases hm : l.name ∈ seen <;> by_cases he : l.name = "" <;>
      simp [collectLabels, seenAfterLabels, hm, he, ih]

/-- Helper: the label seen-set evolution splits over list append. -/
theorem seenAfterLabels_append (xs ys : List Label) (seen : List String) :
    seenAfterLabels seen (xs ++ ys) =
      seenAfterLabels (seenAfterLabels seen xs) ys := by
  induction xs generalizing seen with
  | nil => simp [seenAfterLabels]
  | cons l rest ih =>
    by_cases hm : l.name ∈ seen <;> by_cases he : l.name = "" <;>
      simp [seenAfterLabels, hm, he, ih]

/-- Helper: the detail loop of `Transactions.Push` is the `catchLabel` fold
over the details' label references. -/
theorem foldl_catchDetailLabel_eq (ds : List Details) (s : ExtractState) :
    ds.foldl catchDetailLabel s = (ds.flatMap detailLabelRef).foldl catchLabel s := by
  induction ds generalizing s with
  | nil => simp
  | cons d rest ih =>
    have hd : catchDetailLabel s d = (detailLabelRef d).foldl catchLabel s := by
      unfold catchDetailLabel detailLabelRef
      cases d.label with
      | some l => simp
      | none =>
        by_cases hn : d.labelName ≠ "" <;> simp [hn]
    rw [List.foldl_cons, List.flatMap_cons, List.foldl_append, hd, ih]

/-- Helper: one loop iteration of `Transactions.Push` is the actor fold over
the transaction's actor references followed by the label fold over its
direct label references. -/
theorem extractStep_eq (s : ExtractState) (t : Transaction) :
    extractStep s t =
      (labelRefs t).foldl catchLabel ((actorRefs t).foldl catchActor s) := by
  simp only [extractStep]
  have hr : (match t.receiver with
      | some r => catchActor s r
      | none => if t.receiverName ≠ "" then catchActor s ⟨t.receiverName, 0, ""⟩ else s) =
      (receiverRef t).foldl catchActor s := by
    unfold receiverRef
    cases t.receiver with
    | some r => simp
    | none => by_cases hn : t.receiverName ≠ "" <;> simp [hn]
  have hs : ∀ s' : ExtractState, (match t.sender with
      | some a => catchActor s' a
      | none => if t.senderName ≠ "" then catchActor s' ⟨t.senderName, 0, ""⟩ else s') =
      (senderRef t).foldl catchActor s' := by
    intro s'
    unfold senderRef
    cases t.sender with
    | some a => simp
    | none => by_cases hn : t.senderName ≠ "" <;> simp [hn]
  have hl : ∀ s' : ExtractState, (match t.label with
      | some l => catchLabel s' l
      | none => if t.labelName ≠ "" then catchLabel s' (Label.bare t.labelName) else s') =
      (transactionLabelRef t).foldl catchLabel s' := by
    intro s'
    unfold transactionLabelRef
    cases t.label with
    | some l => simp
    | none => by_cases hn : t.labelName ≠ "" <;> simp [hn]
  rw [hr, hs, hl, foldl_catchDetailLabel_eq, actorRefs, labelRefs,
    List.foldl_append, List.foldl_append]

/-- Helper: the whole extraction loop from any starting state: the actor
output grows by the dedup pass over all actor references, the label output
by the collection pass over all direct label references. -/
theorem foldl_extractStep_spec (ts : List Transaction) (s : ExtractState) :
    (ts.foldl extractStep s).everyActor =
      s.everyActor ++ dedupActors s.seenActors (ts.flatMap actorRefs) ∧
    (ts.foldl extractStep s).seenActors =
      seenAfterActors s.seenActors (ts.flatMap actorRefs) ∧
    (ts.foldl extractStep s).everyLabel =
      s.everyLabel ++ collectLabels s.seenLabels (ts.flatMap labelRefs) ∧
    (ts.foldl extractStep s).seenLabels =
      seenAfterLabels s.seenLabels (ts.flatMap labelRefs) := by
  induction ts generalizing s with
  | nil => simp [dedupActors, seenAfterActors, collectLabels, seenAfterLabels]
  | cons t rest ih =>
    obtain ⟨ih1, ih2, ih3, ih4⟩ := ih (extractStep s t)
    obtain ⟨ha1, ha2, ha3, ha4⟩ := foldl_catchActor_spec (actorRefs t) s
    obtain ⟨hl1, hl2, hl3, hl4⟩ :=
      foldl_catchLabel_spec (labelRefs t) ((actorRefs t).foldl catchActor s)
    have hstep := extractStep_eq s t
    rw [List.foldl_cons, List.flatMap_cons]
    refine ⟨?_, ?_, ?_, ?_⟩
    · rw [ih1, hstep, hl3, hl4, ha1, ha2, dedupActors_append, List.append_assoc]
    · rw [ih2, hstep, hl4, ha2, seenAfterActors_append]
    · rw [ih3, hstep, hl1, hl2, ha3, ha4, List.flatMap_cons, collectLabels_append,
        List.append_assoc]
    · rw [ih4, hstep, hl2, ha4, List.flatMap_cons, seenAfterLabels_append]

/-- Helper: the deduplicated actor list is free of duplicate names, and none
of its names was already seen or is empty. -/
theorem dedupActors_names (as : List Actor) (seen : List String) :
    ((dedupActors seen as).map Actor.name).Nodup ∧
    ∀ a ∈ dedupActors seen as, a.name ∉ seen ∧ a.name ≠ "" := by
  induction as generalizing seen with
  | nil => simp [dedupActors]
  | cons a rest ih =>
    by_cases hm : a.name ∈ seen <;> by_cases he : a.name = ""
    · simpa [dedupActors, hm, he] using ih seen
    · simpa [dedupActors, hm, he] using ih seen
    · simpa [dedupActors, hm, he] using ih seen
    · obtain ⟨ihn, ihm⟩ := ih (a.name :: seen)
      rw [show dedupActors seen (a :: rest) = a :: dedupActors (a.name :: seen) rest by
        simp [dedupActors, hm, he]]
      constructor
      · simp only [List.map_cons, List.nodup_cons]
        refine ⟨fun hmem => ?_, ihn⟩
        obtain ⟨b, hb, hbn⟩ := List.mem_map.mp hmem
        exact (ihm b hb).1 (by simp [hbn])
      · intro b hb
        rcases List.mem_cons.mp hb with rfl | hb'
        · exact ⟨hm, he⟩
        · obtain ⟨h1, h2⟩ := ihm b hb'
          exact ⟨fun hmem => h1 (by simp [hmem]), h2⟩

/-- Helper: in the collected label list, an empty-named entry can only be an
ancestor from some collected label's chain (directly captured labels always
have non-empty names). -/
theorem collectLabels_empty_names (ls : List Label) (seen : List String) :
    ∀ l ∈ collectLabels seen ls, l.name ≠ "" ∨
      ∃ l0 ∈ collectLabels seen ls, l ∈ chainLabels l0.parent := by
  induction ls generalizing seen with
  | nil => simp [collectLabels]
  | cons x rest ih =>
    by_cases hm : x.name ∈ seen <;> by_cases he : x.name = ""
    · simpa [collectLabels, hm, he] using ih seen
    · simpa [collectLabels, hm, he] using ih seen
    · simpa [collectLabels, hm, he] using ih seen
    · intro l hl
      rw [show collectLabels seen (x :: rest) =
          (x :: chainLabels x.parent) ++ collectLabels (x.name :: seen) rest by
        simp [collectLabels, hm, he]] at hl ⊢
      rcases List.mem_append.mp hl with h1 | h2
      · rcases List.mem_cons.mp h1 with rfl | hc
        · exact Or.inl he
        · exact Or.inr ⟨x, by simp, hc⟩
      · rcases ih (x.name :: seen) l h2 with h | ⟨l0, hl0, hch⟩
        · exact Or.inl h
        · exact Or.inr ⟨l0, by simp [hl0], hch⟩

/-- C3 counterexample: two transactions whose labels `a` and `b` share the
parent `p`. The extracted label collection is `[a, p, b, p]` — the parent
appears twice, so the returned Label collection is not deduplicated by name
(ancestor chains are appended without any membership check). -/
theorem c3_counterexample :
    ((extractRefs
      [{ uuid := none, date := "", amount := 0, labelName := "", senderName := "",
         receiverName := "", flags := 0, headers := "",
         label := some (.mk "a" ⟨"", false⟩ 0 "" (some (.mk "p" ⟨"", false⟩ 0 "" none))),
         sender := none, receiver := none, details := none },
       { uuid := none, date := "", amount := 0, labelName := "", senderName := "",
         receiverName := "", flags := 0, headers := "",
         label := some (.mk "b" ⟨"", false⟩ 0 "" (some (.mk "p" ⟨"", false⟩ 0 "" none))),
         sender := none, receiver := none, details := none }]).everyLabel.map Label.name)
      = ["a", "p", "b", "p"] ∧
    ¬ (["a", "p", "b", "p"] : List String).Nodup := by
  refine ⟨?_, by decide⟩
  simp [extractRefs, extractStep, catchActor, catchLabel, catchDetailLabel,
    detailsList, chainLabels, Label.name, Label.parent, Label.bare]

/-- C3 (amended). The extracted Actor collection is exactly the first-wins,
empty-name-dropping deduplication by name of the batch's sender/receiver
reference sequence (so it carries no duplicate names); the extracted Label
collection is exactly the collection pass over the batch's direct label
reference sequence: each non-empty, not yet captured name contributes the
referenced label followed by its whole ancestor chain, the chains appended
without deduplication, so ancestor names may repeat and chains of
already-captured names are dropped. -/
theorem c3_extract_characterization (ts : List Transaction) :
    (extractRefs ts).everyActor = dedupActors [] (ts.flatMap actorRefs) ∧
    ((extractRefs ts).everyActor.map Actor.name).Nodup ∧
    (extractRefs ts).everyLabel = collectLabels [] (ts.flatMap labelRefs) := by
  obtain ⟨h1, h2, h3, h4⟩ := foldl_extractStep_spec ts ⟨[], [], [], []⟩
  refine ⟨by simpa [extractRefs] using h1, ?_, by simpa [extractRefs] using h3⟩
  have ha : (extractRefs ts).everyActor = dedupActors [] (ts.flatMap actorRefs) := by
    simpa [extractRefs] using h1
  rw [ha]
  exact (dedupActors_names (ts.flatMap actorRefs) []).1

/-- C10 counterexample: a transaction whose label `a` has an empty-named
parent. The parent is appended to the extracted label collection during the
ancestor walk, so the extracted Label set holds a label whose name is the
empty string. -/
theorem c10_counterexample :
    ((extractRefs
      [{ uuid := none, date := "", amount := 0, labelName := "", senderName := "",
         receiverName := "", flags := 0, headers := "",
         label := some (.mk "a" ⟨"", false⟩ 0 "" (some (.mk "" ⟨"", false⟩ 0 "" none))),
         sender := none, receiver := none, details := none }]).everyLabel.map Label.name)
      = ["a", ""] ∧
    "" ∈ (["a", ""] : List String) := by
  refine ⟨?_, by decide⟩
  simp [extractRefs, extractStep, catchActor, catchLabel, catchDetailLabel,
    detailsList, chainLabels, Label.name, Label.parent, Label.bare]

/-- C10 (amended). During reference extraction a sender, receiver,
transaction label or detail label with an empty name is silently skipped and
extraction never fails, so every extracted Actor has a non-empty name; an
extracted Label either has a non-empty name or entered the collection as an
ancestor in some extracted label's parent chain (ancestor chains are
appended without the empty-name filter). -/
theorem c10_empty_name_handling (ts : List Transaction) :
    (∀ a ∈ (extractRefs ts).everyActor, a.name ≠ "") ∧
    (∀ l ∈ (extractRefs ts).everyLabel, l.name ≠ "" ∨
       ∃ l0 ∈ (extractRefs ts).everyLabel, l ∈ chainLabels l0.parent) := by
  obtain ⟨h1, h2, h3, h4⟩ := foldl_extractStep_spec ts ⟨[], [], [], []⟩
  have ha : (extractRefs ts).everyActor = dedupActors [] (ts.flatMap actorRefs) := by
    simpa [extractRefs] using h1
  have hl : (extractRefs ts).everyLabel = collectLabels [] (ts.flatMap labelRefs) := by
    simpa [extractRefs] using h3
  constructor
  · intro a hmem
    rw [ha] at hmem
    exact ((dedupActors_names (ts.flatMap actorRefs) []).2 a hmem).2
  · intro l hmem
    rw [hl] at hmem ⊢
    exact collectLabels_empty_names (ts.flatMap labelRefs) [] l hmem

/-- Helper: decoding an encoded `Details` yields the record with the
serialized fields restored and the unserialized ones zeroed. -/
theorem parseDetails_marshalDetails (d : Details) :
    parseDetails (marshalDetails d) = some (cleanDetails d) := rfl

/-- Helper: re-encoding the decode of an encoded `Details` gives the same
tree (only serialized fields feed the encoder). -/
theorem marshalDetails_cleanDetails (d : Details) :
    marshalDetails (cleanDetails d) = marshalDetails d := rfl

/-- Helper: decoding a list of encoded `Details` elementwise. -/
theorem parseDetailsList_map (ds : List Details) :
    parseDetailsList (ds.map marshalDetails) = some (ds.map cleanDetails) := by
  induction ds with
  | nil => rfl
  | cons d rest ih =>
    simp [parseDetailsList, parseDetails_marshalDetails, ih]

/-- Helper: decoding an encoded `Transaction` yields the cleaned record. -/
theorem parseTransaction_marshalTransaction (t : Transaction) :
    parseTransaction (marshalTransaction t) = some (cleanTransaction t) := by
  obtain ⟨u, dt, am, ln, sn, rn, fl, hd, lb, sd, rc, dts⟩ := t
  cases u <;> cases dts <;>
    simp [marshalTransaction, parseTransaction, parseDetailsField, getField,
      asOptString, asString, asInt, asNat, cleanTransaction, parseDetailsList_map,
      List.find?]

/-- Helper: re-encoding the decode of an encoded `Transaction` gives the
same tree. -/
theorem marshalTransaction_cleanTransaction (t : Transaction) :
    marshalTransaction (cleanTransaction t) = marshalTransaction t := by
  obtain ⟨u, dt, am, ln, sn, rn, fl, hd, lb, sd, rc, dts⟩ := t
  cases u <;> cases dts <;>
    simp [marshalTransaction, cleanTransaction, marshalDetails_cleanDetails,
      List.map_map, Function.comp_def]

/-- C8. Round-trip serialization: decoding the encoding of any Transaction
(nested Details included) succeeds and yields a value whose own encoding is
the identical tree, hence the identical bytes under the deterministic
rendering; a Label whose parent is absent (invalid `ParentName`) encodes its
`parent` member as the explicit JSON literal `null`, and decoding `null`
through the `NullString` unmarshaller yields an invalid (NULL) parent
reference again. -/
theorem c8_json_round_trip (t : Transaction) (l : Label) :
    (∃ t', parseTransaction (marshalTransaction t) = some t' ∧
       marshalTransaction t' = marshalTransaction t ∧
       render (marshalTransaction t') = render (marshalTransaction t)) ∧
    (l.parentName.valid = false → getField (labelFields l) "parent" = some Json.null) ∧
    parseNullString Json.null = some ⟨"", false⟩ := by
  refine ⟨⟨cleanTransaction t, parseTransaction_marshalTransaction t,
      marshalTransaction_cleanTransaction t, by rw [marshalTransaction_cleanTransaction]⟩,
    fun hv => ?_, rfl⟩
  simp [labelFields, getField, marshalNullString, hv, List.find?]
